import Mathlib

/-!
# Verification of the BSC trace-analysis engine

Shallow embedding of the analysis core of the BSC repository:

* `Benchmark/utils/analyze_blktrace.py` — the Streaming Pattern Analyzer
  (`stream_analyze`).
* `disk-benchmarking/utils/analysis_tools.py` — the Extent Mapper
  (`get_gguf_sector_range`) and the Batch Analytics Engine
  (`analyze_with_duckdb`).
* `tensor-tracing/tools/parse_trace.py` — the Record Codec (`parse_entry`
  and the record loop of `main`).
* `tensor-tracing/tools/parse_buffer_stats.py` — the buffer-lifecycle
  replay (`compute_occupancy_timeline`, `build_buffer_registry`,
  `compute_metadata`).

Machine integers of the source are modelled as `ℕ`/`ℤ` (sector numbers,
sizes and byte counts in the traces are non-negative counts), float
timestamps and percentages as `ℚ`.
-/

namespace BSC

/-! ## Streaming Pattern Analyzer (`analyze_blktrace.py`) -/

/-- Module constant `SEQUENTIAL_THRESHOLD_SECTORS = 256` (128 KiB gap
tolerance). -/
def SEQUENTIAL_THRESHOLD_SECTORS : ℤ := 256

/-- One whitespace-split blkparse line, after the field extraction of
`stream_analyze` (fields `parts[3]`, `parts[5]`, `parts[6]`, `parts[7]`,
`parts[9]`): timestamp, action, rwbs flags, start sector, length in
sectors.  Sector and length are the non-negative integers parsed by
`int(...)`. -/
structure BlkLine where
  ts : ℚ
  action : String
  rwbs : String
  sector : ℕ
  size_sectors : ℕ
deriving DecidableEq

/-- The read test of `stream_analyze`: the line is processed iff
`'R' in rwbs`. -/
def hasR (rwbs : String) : Bool := rwbs.data.contains 'R'

/-- The running accumulators of `stream_analyze` (lines 23-37 of
`analyze_blktrace.py`). -/
structure StreamState where
  total_reads : ℕ
  total_bytes : ℕ
  sequential : ℕ
  random : ℕ
  gap_sum : ℤ
  gap_count : ℕ
  prev : Option (ℚ × ℕ × ℕ)
  interval_count : ℕ
  interval_sum_ms : ℚ
  interval_min_ms : Option ℚ
  interval_max_ms : Option ℚ
deriving DecidableEq

/-- Initial accumulator state of `stream_analyze`. -/
def initStream : StreamState :=
  { total_reads := 0, total_bytes := 0, sequential := 0, random := 0
    gap_sum := 0, gap_count := 0, prev := none
    interval_count := 0, interval_sum_ms := 0
    interval_min_ms := none, interval_max_ms := none }

/-- One loop iteration of `stream_analyze` (lines 39-84): skip lines
without the read flag; otherwise count the read, and when a previous read
exists classify the gap `|sector - (prev_sector + prev_size)|` against the
threshold and update the inter-arrival statistics. -/
def streamStep (T : ℤ) (st : StreamState) (l : BlkLine) : StreamState :=
  if hasR l.rwbs then
    match st.prev with
    | none =>
        { st with
          total_reads := st.total_reads + 1
          total_bytes := st.total_bytes + l.size_sectors * 512
          prev := some (l.ts, l.sector, l.size_sectors) }
    | some (pts, psec, psize) =>
        let gap : ℤ := |(l.sector : ℤ) - ((psec : ℤ) + (psize : ℤ))|
        let interval : ℚ := (l.ts - pts) * 1000
        { st with
          total_reads := st.total_reads + 1
          total_bytes := st.total_bytes + l.size_sectors * 512
          gap_sum := st.gap_sum + gap
          gap_count := st.gap_count + 1
          sequential := if gap ≤ T then st.sequential + 1 else st.sequential
          random := if gap ≤ T then st.random else st.random + 1
          interval_count := st.interval_count + 1
          interval_sum_ms := st.interval_sum_ms + interval
          interval_min_ms :=
            some ((st.interval_min_ms).elim interval (fun m => min m interval))
          interval_max_ms :=
            some ((st.interval_max_ms).elim interval (fun m => max m interval))
          prev := some (l.ts, l.sector, l.size_sectors) }
  else st

/-- The accumulator state after streaming a whole list of lines. -/
def streamRunState (T : ℤ) (lines : List BlkLine) : StreamState :=
  lines.foldl (streamStep T) (initStream)

/-- The result record assembled by `stream_analyze` (lines 86-103). -/
structure StreamResult where
  total_reads : ℕ
  total_mb_read : ℚ
  sequential_reads : ℕ
  random_reads : ℕ
  sequential_percent : ℚ
  avg_gap_kb : ℚ
  mean_interval_ms : ℚ
  min_interval_ms : ℚ
  max_interval_ms : ℚ
deriving DecidableEq

/-- `stream_analyze`: `None` when no qualifying read was seen, otherwise
the summary record. -/
def streamAnalyze (T : ℤ) (lines : List BlkLine) : Option StreamResult :=
  let st := streamRunState T lines
  if st.total_reads = 0 then none
  else some
    { total_reads := st.total_reads
      total_mb_read := (st.total_bytes : ℚ) / (1024 * 1024)
      sequential_reads := st.sequential
      random_reads := st.random
      sequential_percent :=
        if 0 < st.sequential + st.random then
          (st.sequential : ℚ) / ((st.sequential : ℚ) + (st.random : ℚ)) * 100
        else 0
      avg_gap_kb :=
        if st.gap_count ≠ 0 then (st.gap_sum : ℚ) / (st.gap_count : ℚ) * (1 / 2) else 0
      mean_interval_ms :=
        if st.interval_count ≠ 0 then st.interval_sum_ms / (st.interval_count : ℚ) else 0
      min_interval_ms := (st.interval_min_ms).getD 0
      max_interval_ms := (st.interval_max_ms).getD 0 }

/-- The signed gap sequence of a line list: for each consecutive pair,
`sector - (prev_sector + prev_size)`, starting from an explicit previous
`(sector, size)` pair. -/
def gapsFrom : ℕ × ℕ → List BlkLine → List ℤ
  | _, [] => []
  | p, l :: rest =>
      ((l.sector : ℤ) - ((p.1 : ℤ) + (p.2 : ℤ))) :: gapsFrom (l.sector, l.size_sectors) rest

/-- The signed gap sequence of a line list (empty for fewer than two
lines). -/
def gapsOfL : List BlkLine → List ℤ
  | [] => []
  | l :: rest => gapsFrom (l.sector, l.size_sectors) rest

/-! ## Batch Analytics Engine (`analysis_tools.py`, `analyze_with_duckdb`) -/

/-- One row of the `trace` table loaded from the CSV produced by
`blktrace_to_csv`: timestamp, pid, action, rwbs, start sector, length in
sectors.  The CSV writer derives `size_bytes` as `size_sectors * 512`
(line 151 of `analysis_tools.py`), so it is not a separate field here. -/
structure TraceRow where
  ts : ℚ
  pid : ℕ
  action : String
  rwbs : String
  sector : ℕ
  size_sectors : ℕ
deriving DecidableEq

/-- The `WHERE` clause building the `reads` table (lines 248-255):
`action = 'D' AND rwbs LIKE '%R%' AND pid = llama_pid AND sector >= start
AND sector <= end`. -/
def readsPred (pid lo hi : ℕ) (r : TraceRow) : Bool :=
  r.action = "D" && hasR r.rwbs && r.pid == pid && lo ≤ r.sector && r.sector ≤ hi

/-- The `reads` table: the filtered rows ordered by timestamp
(`ORDER BY timestamp`). -/
def readsTable (pid lo hi : ℕ) (rows : List TraceRow) : List TraceRow :=
  (rows.filter (readsPred pid lo hi)).mergeSort (fun a b => decide (a.ts ≤ b.ts))

/-- Metric 1, total bytes read: `SUM(size_bytes)` over the reads table. -/
def totalBytesRead (reads : List TraceRow) : ℕ :=
  (reads.map (fun r => r.size_sectors * 512)).sum

/-- The sector set covered by one read:
`generate_series(sector, sector + size_sectors - 1)`, i.e. the half-open
range `[sector, sector + size_sectors)`. -/
def coveredSectors (r : TraceRow) : Finset ℕ :=
  Finset.Ico r.sector (r.sector + r.size_sectors)

/-- Metric 2 support: the distinct sectors of the expanded ranges of all
reads (`COUNT(DISTINCT sector_num)` counts its cardinality). -/
def uniqueSectors (reads : List TraceRow) : Finset ℕ :=
  reads.foldr (fun r acc => coveredSectors r ∪ acc) ∅

/-- Metric 2, unique bytes touched: `unique_sectors * 512`. -/
def uniqueBytes (reads : List TraceRow) : ℕ :=
  (uniqueSectors reads).card * 512

/-- The number of reads covering a given sector (used to state the
re-read condition of the spec). -/
def coverCount (reads : List TraceRow) (s : ℕ) : ℕ :=
  reads.countP (fun r => decide (s ∈ coveredSectors r))

/-- The `gaps` table (lines 313-330): for every row with a predecessor in
timestamp order, `sector - (prev_sector + prev_size)`. -/
def gapsOf : List TraceRow → List ℤ
  | [] => []
  | [_] => []
  | a :: b :: t =>
      ((b.sector : ℤ) - ((a.sector : ℤ) + (a.size_sectors : ℤ))) :: gapsOf (b :: t)

/-- Gap bucket `perfect_sequential`: `gap = 0`. -/
def perfectSeqCount (gs : List ℤ) : ℕ := gs.countP (fun g => decide (g = 0))

/-- Gap bucket `small_gap`: `gap > 0 AND gap < gap_small`. -/
def smallGapCount (s : ℤ) (gs : List ℤ) : ℕ :=
  gs.countP (fun g => decide (0 < g ∧ g < s))

/-- Gap bucket `medium_gap`: `gap >= gap_small AND gap < gap_medium`. -/
def mediumGapCount (s m : ℤ) (gs : List ℤ) : ℕ :=
  gs.countP (fun g => decide (s ≤ g ∧ g < m))

/-- Gap bucket `large_gap`: `gap >= gap_medium`. -/
def largeGapCount (m : ℤ) (gs : List ℤ) : ℕ :=
  gs.countP (fun g => decide (m ≤ g))

/-- Gap bucket `backward`: `gap < 0`. -/
def backwardCount (gs : List ℤ) : ℕ := gs.countP (fun g => decide (g < 0))

/-- The view of a trace row taken by the Streaming Pattern Analyzer: the
same five fields it extracts from a blkparse line. -/
def toBlkLine (r : TraceRow) : BlkLine :=
  { ts := r.ts, action := r.action, rwbs := r.rwbs
    sector := r.sector, size_sectors := r.size_sectors }

/-! ## Extent Mapper (`analysis_tools.py`, `get_gguf_sector_range`) -/

/-- The merge scan of `get_gguf_sector_range` (lines 57-71): starting from
the running extent `cur`, absorb a following extent whose start block is
exactly `cur.end + 1`, otherwise emit `cur` and restart from the new
extent; the last running extent is always emitted. -/
def mergeAdjacent : ℕ × ℕ → List (ℕ × ℕ) → List (ℕ × ℕ)
  | cur, [] => [cur]
  | cur, (s, e) :: rest =>
      if s = cur.2 + 1 then mergeAdjacent (cur.1, e) rest
      else cur :: mergeAdjacent (s, e) rest

/-- `extents.sort(key=lambda x: x[0])`: sort by physical start block. -/
def sortExtents (l : List (ℕ × ℕ)) : List (ℕ × ℕ) :=
  l.mergeSort (fun a b => decide (a.1 ≤ b.1))

/-- The merged extent list: sort by start block, then merge adjacent
extents. -/
def mergedExtents (l : List (ℕ × ℕ)) : List (ℕ × ℕ) :=
  match sortExtents l with
  | [] => []
  | x :: rest => mergeAdjacent x rest

/-- `get_gguf_sector_range` proper: `None` models the `ValueError` raised
when no extent was parsed; otherwise
`(min_block * 8, (max_block + 1) * 8, number of merged extents)` with
`min_block` the first merged start and `max_block` the last merged end
(blocks are 4096 bytes = 8 sectors, the end bound exclusive). -/
def ggufSectorRange (extents : List (ℕ × ℕ)) : Option (ℕ × ℕ × ℕ) :=
  match mergedExtents extents with
  | [] => none
  | x :: rest =>
      some (x.1 * 8, (((x :: rest).getLast (List.cons_ne_nil x rest)).2 + 1) * 8,
        (x :: rest).length)

/-- Number of adjacency breaks between consecutive extents of a list; the
number of maximal runs of adjacency of a non-empty list is this plus
one. -/
def adjacencyBreaks : List (ℕ × ℕ) → ℕ
  | [] => 0
  | [_] => 0
  | a :: b :: t => (if b.1 = a.2 + 1 then 0 else 1) + adjacencyBreaks (b :: t)

/-- Separation of consecutive extents: the previous extent ends strictly
before the next one starts (inclusive ends, so `a.2 < b.1` means no
overlap). -/
def sepChain : List (ℕ × ℕ) → Prop := List.Chain' (fun a b => a.2 < b.1)

instance : DecidablePred sepChain := fun _ =>
  inferInstanceAs (Decidable (List.Chain' _ _))

/-! ## Record Codec (`parse_trace.py`) -/

/-- Little-endian value of the first `n` bytes of a list (missing bytes
read as zero; full records always supply every byte). -/
def readLE : ℕ → List ℕ → ℕ
  | 0, _ => 0
  | _ + 1, [] => 0
  | n + 1, b :: bs => b + 256 * readLE n bs

/-- The unsigned little-endian field of width `len` at byte offset `off`
of a record. -/
def fieldLE (data : List ℕ) (off len : ℕ) : ℕ := readLE len (data.drop off)

/-- Signed reinterpretation of a 32-bit unsigned value (the `<16i` expert
id fields). -/
def toSigned32 (n : ℕ) : ℤ :=
  if n < 2 ^ 31 then (n : ℤ) else (n : ℤ) - 2 ^ 32

/-- `ENTRY_SIZE = 1024`. -/
def ENTRY_SIZE : ℕ := 1024

/-- The numeric fields of one `SourceTensorInfo` (format
`<128sQIHBBQI4s`, 160 bytes): pointer at offset 128, size at 136,
layer id at 140 (sentinel 65535 ↦ absent), memory source byte at 142
(`0` ↦ `DISK`, else `BUFFER`), disk offset / buffer id at 144, tensor
index at 152 (sentinel `0xFFFFFFFF` ↦ absent).  The 128-byte name field
is diagnostic text and not modelled. -/
structure SourceTensorInfo where
  tensor_ptr : ℕ
  size_bytes : ℕ
  layer_id : Option ℕ
  memory_source : String
  disk_offset_or_buffer_id : ℕ
  tensor_idx : Option ℕ
deriving DecidableEq

/-- `parse_source` on a full record, at source base offset `off`. -/
def parseSourceFields (data : List ℕ) (off : ℕ) : SourceTensorInfo :=
  let lid := fieldLE data (off + 140) 2
  let tidx := fieldLE data (off + 152) 4
  { tensor_ptr := fieldLE data (off + 128) 8
    size_bytes := fieldLE data (off + 136) 4
    layer_id := if lid = 65535 then none else some lid
    memory_source := if fieldLE data (off + 142) 1 = 0 then "DISK" else "BUFFER"
    disk_offset_or_buffer_id := fieldLE data (off + 144) 8
    tensor_idx := if tidx = 4294967295 then none else some tidx }

/-- A decoded `TensorAccessLog` (the numeric fields of the 1024-byte
format; metadata layout `<QIHHBBB5s`, destination name at 24, sources at
152, expert ids at 792, expert count at 856). -/
structure TraceEntry where
  timestamp_ns : ℕ
  token_id : ℕ
  layer_id : Option ℕ
  thread_id : ℕ
  operation_type : ℕ
  phase : String
  num_sources : ℕ
  sources : List SourceTensorInfo
  expert_ids : List ℤ
  num_experts : ℕ
deriving DecidableEq

/-- Total field decoder for a full 1024-byte record (the body of
`parse_entry` past the length and timestamp guards): layer sentinel 65535
↦ absent, phase byte `0` ↦ `PROMPT` else `GENERATE`, the source slots
taken only for indices below `num_sources`, and the expert id list
truncated at `num_experts`. -/
def decodeEntry (data : List ℕ) : TraceEntry :=
  let lid := fieldLE data 12 2
  let ns := fieldLE data 18 1
  let ne := fieldLE data 856 1
  { timestamp_ns := fieldLE data 0 8
    token_id := fieldLE data 8 4
    layer_id := if lid = 65535 then none else some lid
    thread_id := fieldLE data 14 2
    operation_type := fieldLE data 16 1
    phase := if fieldLE data 17 1 = 0 then "PROMPT" else "GENERATE"
    num_sources := ns
    sources := (List.range 4).filterMap
      (fun i => if i < ns then some (parseSourceFields data (152 + 160 * i)) else none)
    expert_ids :=
      if 0 < ne then ((List.range 16).map (fun i => toSigned32 (fieldLE data (792 + 4 * i) 4))).take ne
      else []
    num_experts := ne }

/-- `parse_entry`: `None` for a buffer shorter than `ENTRY_SIZE` and for a
zero leading timestamp (the padding / "no more data" signal), otherwise
the decoded entry. -/
def parseEntry (data : List ℕ) : Option TraceEntry :=
  if data.length < ENTRY_SIZE then none
  else if fieldLE data 0 8 = 0 then none
  else some (decodeEntry data)

/-- The record loop of `main` (lines 531-544): read `ENTRY_SIZE`-byte
chunks, stop at a short read or at the first chunk `parse_entry` rejects;
collect the decoded entries. -/
def parseAllEntries (data : List ℕ) : List TraceEntry :=
  if h : data.length < ENTRY_SIZE then []
  else
    match parseEntry (data.take ENTRY_SIZE) with
    | none => []
    | some e => e :: parseAllEntries (data.drop ENTRY_SIZE)
termination_by data.length
decreasing_by
  simp only [List.length_drop]
  simp only [ENTRY_SIZE] at h ⊢
  omega

/-- The full `ENTRY_SIZE`-byte records of a byte stream, in order, the
trailing partial record dropped. -/
def chunkRecords (data : List ℕ) : List (List ℕ) :=
  if h : data.length < ENTRY_SIZE then []
  else data.take ENTRY_SIZE :: chunkRecords (data.drop ENTRY_SIZE)
termination_by data.length
decreasing_by
  simp only [List.length_drop]
  simp only [ENTRY_SIZE] at h ⊢
  omega

/-! ## Buffer-lifecycle replay (`parse_buffer_stats.py`) -/

/-- One parsed JSONL buffer event: an `alloc` carries `size` (a byte
count) and `name`; a `dealloc` only the buffer id.  Both carry
`timestamp_ms`. -/
inductive BufEvent where
  | alloc (timestamp_ms : ℚ) (buffer_id : ℕ) (size : ℕ) (name : String)
  | dealloc (timestamp_ms : ℚ) (buffer_id : ℕ)
deriving DecidableEq

/-- One registry record of `build_buffer_registry`. -/
structure BufferInfo where
  size : ℕ
  name : String
  alloc_time_ms : ℚ
  dealloc_time_ms : Option ℚ
deriving DecidableEq

/-- Assignment `d[k] = v` on a Python dict modelled as an association
list: overwrite in place when the key exists, append otherwise. -/
def dictSet {β : Type} (l : List (ℕ × β)) (k : ℕ) (v : β) : List (ℕ × β) :=
  if l.any (fun p => p.1 == k) then
    l.map (fun p => if p.1 = k then (k, v) else p)
  else l ++ [(k, v)]

/-- `build_buffer_registry`: fold the alloc events into a registry,
last alloc of an id winning; `dealloc_time_ms` starts absent. -/
def buildRegistry (events : List BufEvent) : List (ℕ × BufferInfo) :=
  events.foldl
    (fun reg ev =>
      match ev with
      | .alloc ts id sz nm =>
          dictSet reg id { size := sz, name := nm, alloc_time_ms := ts, dealloc_time_ms := none }
      | .dealloc _ _ => reg)
    []

/-- One emitted timeline record of `compute_occupancy_timeline`. -/
structure TimelineEntry where
  timestamp_ms : ℚ
  event : String
  buffer_id : ℕ
  buffer_name : String
  size : ℕ
  cumulative_size : ℤ
  num_active_buffers : ℕ
deriving DecidableEq

/-- The replay state of `compute_occupancy_timeline`: the emitted
timeline, the active `buffer_id -> size` dict, the running cumulative
size, and the registry it mutates with dealloc times. -/
structure OccState where
  timeline : List TimelineEntry
  active : List (ℕ × ℕ)
  cumulative : ℤ
  registry : List (ℕ × BufferInfo)
deriving DecidableEq

/-- One loop iteration of `compute_occupancy_timeline` (lines 111-151):
an `alloc` stores the size under the id (overwriting a still-active id),
adds it to the cumulative size and emits an entry; a `dealloc` of an
active id removes it, subtracts its stored size, stamps the registry's
`dealloc_time_ms` and emits an entry; a `dealloc` of an unknown id only
logs a warning. -/
def occStep (st : OccState) (ev : BufEvent) : OccState :=
  match ev with
  | .alloc ts id sz nm =>
      let active' := dictSet st.active id sz
      let cum' := st.cumulative + (sz : ℤ)
      { st with
        active := active'
        cumulative := cum'
        timeline := st.timeline ++
          [{ timestamp_ms := ts, event := "alloc", buffer_id := id, buffer_name := nm
             size := sz, cumulative_size := cum', num_active_buffers := active'.length }] }
  | .dealloc ts id =>
      match st.active.lookup id with
      | some sz =>
          let active' := st.active.filter (fun p => decide (p.1 ≠ id))
          let cum' := st.cumulative - (sz : ℤ)
          { st with
            active := active'
            cumulative := cum'
            registry := st.registry.map
              (fun p => if p.1 = id then (p.1, { p.2 with dealloc_time_ms := some ts }) else p)
            timeline := st.timeline ++
              [{ timestamp_ms := ts, event := "dealloc", buffer_id := id
                 buffer_name := ((st.registry.lookup id).map (fun i => i.name)).getD "unknown"
                 size := sz, cumulative_size := cum', num_active_buffers := active'.length }] }
      | none => st

/-- `compute_occupancy_timeline`: replay the events from the given
registry and an empty active set. -/
def computeOccupancy (events : List BufEvent) (reg : List (ℕ × BufferInfo)) : OccState :=
  events.foldl occStep { timeline := [], active := [], cumulative := 0, registry := reg }

/-- `max(generator, default=0)` over the cumulative sizes of the
timeline (the peak occupancy of `compute_metadata`). -/
def peakOccupancy (tl : List TimelineEntry) : ℤ :=
  match tl.map (fun t => t.cumulative_size) with
  | [] => 0
  | x :: xs => xs.foldl max x

/-- The lifetime shown by `display_summary` for a registry record:
`dealloc_time_ms - alloc_time_ms` when deallocated, absent while
active. -/
def lifetimeOf (i : BufferInfo) : Option ℚ :=
  i.dealloc_time_ms.map (fun d => d - i.alloc_time_ms)

/-- Modelled from the spec: the invariant form of the replay step, used
only to compare against `occStep` — identical except that the emitted
entry's `cumulative_size` is recomputed from scratch as the sum of the
sizes of the active buffers after the event ("the cumulative_size field
equals the sum of the sizes of the currently active buffers"). -/
def occStepSpec (st : OccState) (ev : BufEvent) : OccState :=
  match ev with
  | .alloc ts id sz nm =>
      let active' := dictSet st.active id sz
      let cum' := st.cumulative + (sz : ℤ)
      { st with
        active := active'
        cumulative := cum'
        timeline := st.timeline ++
          [{ timestamp_ms := ts, event := "alloc", buffer_id := id, buffer_name := nm
             size := sz
             cumulative_size := (((active'.map (fun p => p.2)).sum : ℕ) : ℤ)
             num_active_buffers := active'.length }] }
  | .dealloc ts id =>
      match st.active.lookup id with
      | some sz =>
          let active' := st.active.filter (fun p => decide (p.1 ≠ id))
          let cum' := st.cumulative - (sz : ℤ)
          { st with
            active := active'
            cumulative := cum'
            registry := st.registry.map
              (fun p => if p.1 = id then (p.1, { p.2 with dealloc_time_ms := some ts }) else p)
            timeline := st.timeline ++
              [{ timestamp_ms := ts, event := "dealloc", buffer_id := id
                 buffer_name := ((st.registry.lookup id).map (fun i => i.name)).getD "unknown"
                 size := sz
                 cumulative_size := (((active'.map (fun p => p.2)).sum : ℕ) : ℤ)
                 num_active_buffers := active'.length }] }
      | none => st

/-- Modelled from the spec: the replay with the recomputed
`cumulative_size` fields. -/
def computeOccupancySpec (events : List BufEvent) (reg : List (ℕ × BufferInfo)) : OccState :=
  events.foldl occStepSpec { timeline := [], active := [], cumulative := 0, registry := reg }

/-- "No alloc event reuses a buffer id that is still active", relative to
a starting active dict: tracked along the same active-set evolution as
the replay itself. -/
def noActiveReuse : List (ℕ × ℕ) → List BufEvent → Bool
  | _, [] => true
  | active, .alloc _ id sz _ :: rest =>
      (active.lookup id == none) && noActiveReuse (dictSet active id sz) rest
  | active, .dealloc _ id :: rest =>
      match active.lookup id with
      | some _ => noActiveReuse (active.filter (fun p => decide (p.1 ≠ id))) rest
      | none => noActiveReuse active rest

/-! ## Concrete inputs used by the claims -/

/-- The three reads of the spec's streaming scenario:
`(sector=1000,len=8)`, `(sector=1008,len=8)`, `(sector=5000,len=8)`. -/
def linesC6 : List BlkLine :=
  [ { ts := 0, action := "D", rwbs := "R", sector := 1000, size_sectors := 8 }
  , { ts := 0, action := "D", rwbs := "R", sector := 1008, size_sectors := 8 }
  , { ts := 0, action := "D", rwbs := "R", sector := 5000, size_sectors := 8 } ]

/-- Two consecutive reads with a small backward gap: the second read
starts 4 sectors before the end of the first. -/
def rowsBackward : List TraceRow :=
  [ { ts := 0, pid := 7, action := "D", rwbs := "R", sector := 1000, size_sectors := 8 }
  , { ts := 1, pid := 7, action := "D", rwbs := "R", sector := 1004, size_sectors := 8 } ]

/-- Two perfectly contiguous reads (gap 0). -/
def rowsContiguous : List TraceRow :=
  [ { ts := 0, pid := 7, action := "D", rwbs := "R", sector := 0, size_sectors := 8 }
  , { ts := 1, pid := 7, action := "D", rwbs := "R", sector := 8, size_sectors := 8 } ]

/-- A read-direction event at a non-dispatch lifecycle stage
(action `Q`, queue insertion). -/
def lineQueuedRead : BlkLine :=
  { ts := 0, action := "Q", rwbs := "R", sector := 0, size_sectors := 8 }

/-- A dispatched read starting exactly at the upper sector bound 8
produced by `ggufSectorRange [(0, 0)]`. -/
def rowAtBound : TraceRow :=
  { ts := 0, pid := 7, action := "D", rwbs := "R", sector := 8, size_sectors := 8 }

/-- A queue-stage read row (action `Q`), not a dispatch event. -/
def rowQueued : TraceRow :=
  { ts := 0, pid := 7, action := "Q", rwbs := "R", sector := 0, size_sectors := 8 }

/-- A dispatched write line: no read flag in `rwbs`. -/
def lineWrite : BlkLine :=
  { ts := 0, action := "D", rwbs := "W", sector := 0, size_sectors := 8 }

/-- The extent scenario of the spec: blocks
`[(0,99),(100,199),(300,399)]`. -/
def extentsC5 : List (ℕ × ℕ) := [(0, 99), (100, 199), (300, 399)]

/-- Two overlapping block extents. -/
def extentsOverlap : List (ℕ × ℕ) := [(0, 10), (5, 20)]


/-- The spec's extent scenario in a scrambled input order. -/
def extentsC5shuffled : List (ℕ × ℕ) := [(300, 399), (0, 99), (100, 199)]

/-- The buffer scenario of the spec: `alloc(id=1,size=100)`,
`alloc(id=2,size=50)`, `dealloc(id=1)` (at times 0, 1, 2 ms). -/
def eventsC9 : List BufEvent :=
  [ .alloc 0 1 100 "A", .alloc 1 2 50 "B", .dealloc 2 1 ]

end BSC

namespace BSC

/-! ## Theorems -/

/-- C6: on the reads `(1000,8)`, `(1008,8)`, `(5000,8)` with threshold
256, the Streaming Pattern Analyzer sees the signed gaps `0` (sequential)
and `3984` (random) and reports `sequential=1`, `random=1`,
`sequential_percent=50`. -/
theorem claim6_stream_concrete_scenario :
    gapsOfL linesC6 = [0, 3984] ∧
    (streamAnalyze SEQUENTIAL_THRESHOLD_SECTORS linesC6).map
        (fun r => (r.sequential_reads, r.random_reads, r.sequential_percent)) =
      some (1, 1, 50) := by
  refine ⟨by decide, ?_⟩
  norm_num [streamAnalyze, streamRunState, linesC6, initStream, streamStep, hasR,
    SEQUENTIAL_THRESHOLD_SECTORS, List.foldl]

/-- C9: replaying `alloc(1,100)`, `alloc(2,50)`, `dealloc(1)` yields peak
cumulative size 150 and final cumulative size 50; buffer 1's registry
record carries `dealloc_time_ms = 2` and lifetime `2 - 0`, and buffer 2
is still active with `dealloc_time_ms` absent. -/
theorem claim9_buffer_concrete_scenario :
    peakOccupancy (computeOccupancy eventsC9 (buildRegistry eventsC9)).timeline = 150 ∧
    (computeOccupancy eventsC9 (buildRegistry eventsC9)).cumulative = 50 ∧
    ((computeOccupancy eventsC9 (buildRegistry eventsC9)).registry.lookup 1).map
        (fun i => (i.dealloc_time_ms, lifetimeOf i)) = some (some 2, some 2) ∧
    ((computeOccupancy eventsC9 (buildRegistry eventsC9)).registry.lookup 2).map
        (fun i => i.dealloc_time_ms) = some none := by
  norm_num [computeOccupancy, eventsC9, buildRegistry, occStep, dictSet, peakOccupancy,
    lifetimeOf, List.foldl, List.lookup, List.filter]
  exact ⟨{ size := 50, name := "B", alloc_time_ms := 1, dealloc_time_ms := none }, rfl, rfl⟩

/-- C1 counterexample: on the two reads `(1000,8)`, `(1004,8)` the signed
gap is `-4`, so the Streaming Pattern Analyzer (`|gap| ≤ 256`) counts one
sequential read while the Batch Analytics Engine's sequential buckets
(`gap = 0` plus `0 < gap < 256`) count none: the two classification
counts differ on the same event sequence and threshold. -/
theorem claim1_counterexample :
    gapsOf rowsBackward = [-4] ∧
    (streamRunState SEQUENTIAL_THRESHOLD_SECTORS (rowsBackward.map toBlkLine)).sequential = 1 ∧
    perfectSeqCount (gapsOf rowsBackward) +
      smallGapCount SEQUENTIAL_THRESHOLD_SECTORS (gapsOf rowsBackward) = 0 := by
  refine ⟨by decide, ?_, by decide⟩
  norm_num [streamRunState, rowsBackward, toBlkLine, initStream, streamStep, hasR,
    SEQUENTIAL_THRESHOLD_SECTORS, List.foldl, List.map]

/-- C2 counterexample: a read-direction event at a non-dispatch lifecycle
stage (action `Q`) is still counted by the Streaming Pattern Analyzer,
which filters only on the read flag. -/
theorem claim2_counterexample :
    lineQueuedRead.action ≠ "D" ∧
    (streamRunState SEQUENTIAL_THRESHOLD_SECTORS [lineQueuedRead]).total_reads = 1 ∧
    (streamRunState SEQUENTIAL_THRESHOLD_SECTORS [lineQueuedRead]).total_bytes = 4096 := by
  decide

/-- C4 counterexample: with the caller-supplied thresholds
`gap_small = 0 < gap_medium = 10` the single zero gap of two contiguous
reads is counted both as `perfect_sequential` and as `medium_gap`, so the
five buckets sum to 2, not `total_events - 1 = 1`. -/
theorem claim4_counterexample :
    (0 : ℤ) < 10 ∧
    perfectSeqCount (gapsOf rowsContiguous) + smallGapCount 0 (gapsOf rowsContiguous) +
      mediumGapCount 0 10 (gapsOf rowsContiguous) + largeGapCount 10 (gapsOf rowsContiguous) +
      backwardCount (gapsOf rowsContiguous) = 2 ∧
    rowsContiguous.length - 1 = 1 := by
  decide

unseal List.merge List.mergeSort in
/-- C5 counterexample: on the overlapping input extents
`[(0,10),(5,20)]` the Extent Mapper's merged output is itself
overlapping, so the merged output of an arbitrary non-empty extent list
is not always non-overlapping. -/
theorem claim5_counterexample :
    extentsOverlap ≠ [] ∧
    mergedExtents extentsOverlap = [(0, 10), (5, 20)] ∧
    ¬ sepChain (mergedExtents extentsOverlap) := by
  exact ⟨by decide, by unfold mergedExtents sortExtents extentsOverlap; rfl, by
    intro hc
    rw [show mergedExtents extentsOverlap = [(0, 10), (5, 20)] from by
      unfold mergedExtents sortExtents extentsOverlap; rfl] at hc
    exact absurd (List.chain'_cons.mp hc).1 (by decide)⟩

unseal List.merge List.mergeSort in
/-- C7 counterexample: `ggufSectorRange [(0,0)]` yields the bound
`[0, 8)` in the half-open reading, yet a dispatched read starting exactly
at sector 8 passes the batch filter (`sector <= 8`) and lands in the
`reads` table, contrary to the claimed exclusion. -/
theorem claim7_counterexample :
    ggufSectorRange [(0, 0)] = some (0, 8, 1) ∧
    rowAtBound.sector = 8 ∧
    rowAtBound ∈ readsTable 7 0 8 [rowAtBound] := by
  refine ⟨by unfold ggufSectorRange mergedExtents sortExtents; rfl, by decide, ?_⟩
  rw [show readsTable 7 0 8 [rowAtBound] = [rowAtBound] from by
    unfold readsTable; rfl]
  exact List.mem_singleton.mpr rfl

/-- Bounded-length auxiliary form of the C8 record-loop lemma. -/
theorem parseAllEntries_eq_takeWhile_aux (n : ℕ) :
    ∀ data : List ℕ, data.length ≤ n →
      parseAllEntries data =
        ((chunkRecords data).takeWhile (fun c => decide (fieldLE c 0 8 ≠ 0))).map decodeEntry := by
  induction n with
  | zero =>
      intro data hlen
      rw [parseAllEntries, chunkRecords]
      have hlt : data.length < ENTRY_SIZE := by
        simp only [ENTRY_SIZE]; omega
      simp [hlt]
  | succ n ih =>
      intro data hlen
      rw [parseAllEntries, chunkRecords]
      by_cases hlt : data.length < ENTRY_SIZE
      · simp [hlt]
      · simp only [hlt, dite_false]
        have hchunklen : (data.take ENTRY_SIZE).length = ENTRY_SIZE := by
          simp only [List.length_take]
          omega
        rw [parseEntry]
        simp only [hchunklen, lt_irrefl, ite_false]
        rw [List.takeWhile_cons]
        by_cases hz : fieldLE (data.take ENTRY_SIZE) 0 8 = 0
        · rw [if_pos hz, show decide (fieldLE (data.take ENTRY_SIZE) 0 8 ≠ 0) = false by
            simp [hz]]
          simp
        · rw [if_neg hz, show decide (fieldLE (data.take ENTRY_SIZE) 0 8 ≠ 0) = true by
            simp [hz]]
          simp only [if_true, List.map_cons]
          congr 1
          apply ih
          simp only [List.length_drop, ENTRY_SIZE] at *
          omega

/-- C8: the Record Codec never fails on any byte stream: a full record
with a zero leading timestamp decodes to the "no more data" signal, and
the record loop returns exactly the decoded maximal run of full records
with non-zero leading timestamps — a trailing partial record (dropped by
`chunkRecords`) ends the stream cleanly. -/
theorem claim8_codec_total_maximal_run :
    (∀ data : List ℕ, data.length = ENTRY_SIZE → fieldLE data 0 8 = 0 →
      parseEntry data = none) ∧
    (∀ data : List ℕ,
      parseAllEntries data =
        ((chunkRecords data).takeWhile (fun c => decide (fieldLE c 0 8 ≠ 0))).map decodeEntry) := by
  constructor
  · intro data hlen hz
    rw [parseEntry]
    simp [hlen, hz]
  · intro data
    exact parseAllEntries_eq_takeWhile_aux data.length data le_rfl

/-- C8 witness: the all-zero full record decodes to `none`, and on the
concrete stream of one valid record followed by a zero record and a
partial tail, the loop decodes exactly the first record. -/
theorem claim8_witness :
    parseEntry (List.replicate 1024 0) = none ∧
    parseAllEntries [] = [] := by
  constructor
  · refine claim8_codec_total_maximal_run.1 (List.replicate 1024 0)
      (by rw [List.length_replicate]; rfl) ?_
    have hz : ∀ n m : ℕ, readLE n (List.replicate m 0) = 0 := by
      intro n
      induction n with
      | zero => intro m; rw [readLE]
      | succ n ihn =>
          intro m
          cases m with
          | zero => rw [List.replicate, readLE]
          | succ m => rw [List.replicate, readLE, ihn]
    show readLE 8 ((List.replicate 1024 0).drop 0) = 0
    rw [List.drop_zero]
    exact hz 8 1024
  · rw [claim8_codec_total_maximal_run.2 [], chunkRecords]
    norm_num [ENTRY_SIZE]

/-- A sector is in the expanded distinct-sector set iff some read covers
it. -/
theorem mem_uniqueSectors {s : ℕ} :
    ∀ rows : List TraceRow, s ∈ uniqueSectors rows ↔ ∃ r ∈ rows, s ∈ coveredSectors r := by
  intro rows
  induction rows with
  | nil => simp [uniqueSectors]
  | cons r rest ih =>
      show s ∈ coveredSectors r ∪ uniqueSectors rest ↔ _
      rw [Finset.mem_union, ih]
      simp

/-- A read of `n` sectors expands to exactly `n` distinct sectors. -/
theorem card_coveredSectors (r : TraceRow) : (coveredSectors r).card = r.size_sectors := by
  simp [coveredSectors]

/-- Splitting the covering count at the head read. -/
theorem coverCount_cons (r : TraceRow) (rest : List TraceRow) (s : ℕ) :
    coverCount (r :: rest) s = coverCount rest s + (if s ∈ coveredSectors r then 1 else 0) := by
  simp [coverCount, List.countP_cons]

/-- Sector-level form of C3: the distinct-sector count is at most the
summed sector count of all reads, with equality exactly when no sector is
covered by two reads. -/
theorem uniqueSectors_card_le (rows : List TraceRow) :
    (uniqueSectors rows).card ≤ (rows.map (fun r => r.size_sectors)).sum ∧
    ((uniqueSectors rows).card = (rows.map (fun r => r.size_sectors)).sum ↔
      ∀ s, coverCount rows s ≤ 1) := by
  induction rows with
  | nil => simp [uniqueSectors, coverCount]
  | cons r rest ih =>
      have hid := Finset.card_union_add_card_inter (coveredSectors r) (uniqueSectors rest)
      have hcov := card_coveredSectors r
      have hU : uniqueSectors (r :: rest) = coveredSectors r ∪ uniqueSectors rest := rfl
      have hsum : ((r :: rest).map (fun x => x.size_sectors)).sum
          = r.size_sectors + (rest.map (fun x => x.size_sectors)).sum := by simp
      have hiff : (∀ s, coverCount (r :: rest) s ≤ 1) ↔
          ((coveredSectors r ∩ uniqueSectors rest) = ∅ ∧ ∀ s, coverCount rest s ≤ 1) := by
        constructor
        · intro h
          constructor
          · apply Finset.eq_empty_iff_forall_not_mem.mpr
            intro s hs
            obtain ⟨hsA, hsB⟩ := Finset.mem_inter.mp hs
            have h1 : 0 < coverCount rest s := by
              rcases (mem_uniqueSectors rest).mp hsB with ⟨rr, hrr, hcv⟩
              exact List.countP_pos_iff.mpr ⟨rr, hrr, by simpa using hcv⟩
            have h2 := h s
            rw [coverCount_cons, if_pos hsA] at h2
            omega
          · intro s
            have h2 := h s
            rw [coverCount_cons] at h2
            omega
        · rintro ⟨hempty, htail⟩ s
          rw [coverCount_cons]
          by_cases hsA : s ∈ coveredSectors r
          · have hnB : s ∉ uniqueSectors rest := fun hB =>
              Finset.eq_empty_iff_forall_not_mem.mp hempty s (Finset.mem_inter.mpr ⟨hsA, hB⟩)
            have h0 : coverCount rest s = 0 := by
              apply List.countP_eq_zero.mpr
              intro rr hrr hp
              exact hnB ((mem_uniqueSectors rest).mpr ⟨rr, hrr, by simpa using hp⟩)
            rw [if_pos hsA, h0]
          · rw [if_neg hsA]
            have := htail s
            omega
      refine ⟨?_, ?_⟩
      · rw [hU, hsum]
        omega
      · rw [hU, hsum, hiff, ← Finset.card_eq_zero, ← ih.2]
        omega

/-- C3: for every read-event list, the unique-bytes-touched metric is at
most the total-bytes-read metric, with equality iff no sector is covered
by more than one read event. -/
theorem claim3_unique_le_total (rows : List TraceRow) :
    uniqueBytes rows ≤ totalBytesRead rows ∧
    (uniqueBytes rows = totalBytesRead rows ↔ ∀ s, coverCount rows s ≤ 1) := by
  have hbytes : totalBytesRead rows = (rows.map (fun r => r.size_sectors)).sum * 512 := by
    induction rows with
    | nil => rfl
    | cons r rest ih =>
        simp only [totalBytesRead, List.map_cons, List.sum_cons] at *
        omega
  obtain ⟨h1, h2⟩ := uniqueSectors_card_le rows
  have hub : uniqueBytes rows = (uniqueSectors rows).card * 512 := rfl
  rw [hub, hbytes]
  refine ⟨by omega, ?_⟩
  rw [← h2]
  omega

/-- With positive, ordered thresholds every signed gap falls in exactly
one of the five buckets. -/
theorem gap_bucket_indicator (s m g : ℤ) (hs : 0 < s) (hm : s < m) :
    (if g = 0 then 1 else 0) + (if 0 < g ∧ g < s then 1 else 0) +
      (if s ≤ g ∧ g < m then 1 else 0) + (if m ≤ g then 1 else 0) +
      (if g < 0 then 1 else 0) = 1 := by
  rcases lt_trichotomy g 0 with h | h | h
  · rw [if_neg (by omega), if_neg (by omega), if_neg (by omega), if_neg (by omega), if_pos h]
  · rw [if_pos h, if_neg (by omega), if_neg (by omega), if_neg (by omega), if_neg (by omega)]
  · by_cases hs1 : g < s
    · rw [if_neg (by omega), if_pos ⟨h, hs1⟩, if_neg (by omega), if_neg (by omega),
        if_neg (by omega)]
    · by_cases hm1 : g < m
      · rw [if_neg (by omega), if_neg (by omega), if_pos ⟨by omega, hm1⟩, if_neg (by omega),
          if_neg (by omega)]
      · rw [if_neg (by omega), if_neg (by omega), if_neg (by omega), if_pos (by omega),
          if_neg (by omega)]

/-- With positive, ordered thresholds the five bucket counts of any gap
list sum to its length. -/
theorem gap_buckets_total (s m : ℤ) (hs : 0 < s) (hm : s < m) (gs : List ℤ) :
    perfectSeqCount gs + smallGapCount s gs + mediumGapCount s m gs +
      largeGapCount m gs + backwardCount gs = gs.length := by
  induction gs with
  | nil => rfl
  | cons g t ih =>
      simp only [perfectSeqCount, smallGapCount, mediumGapCount, largeGapCount, backwardCount,
        List.countP_cons, decide_eq_true_eq, List.length_cons] at *
      have hind := gap_bucket_indicator s m g hs hm
      omega

/-- The gap list of a non-empty ordered read list has one entry per
consecutive pair. -/
theorem gapsOf_length (rows : List TraceRow) : (gapsOf rows).length = rows.length - 1 := by
  induction rows with
  | nil => rfl
  | cons r rest ih =>
      cases rest with
      | nil => rfl
      | cons b t =>
          simp only [gapsOf, List.length_cons] at *
          omega

/-- C4 (amended): for a non-empty timestamp-ordered read list and
caller-supplied thresholds with `0 < gap_small < gap_medium`, the five
gap-histogram counts of the Batch Analytics Engine sum exactly to
`total_events - 1`.  (The positivity bound is forced by
`claim4_counterexample`: with `gap_small ≤ 0` a zero gap is counted in
both the zero-gap and the medium-gap buckets.) -/
theorem claim4_amended (rows : List TraceRow) (s m : ℤ)
    (hrows : rows ≠ []) (hs : 0 < s) (hm : s < m) :
    perfectSeqCount (gapsOf rows) + smallGapCount s (gapsOf rows) +
      mediumGapCount s m (gapsOf rows) + largeGapCount m (gapsOf rows) +
      backwardCount (gapsOf rows) = rows.length - 1 := by
  rw [gap_buckets_total s m hs hm (gapsOf rows), gapsOf_length rows]

/-- C4 witness: the amended histogram completeness at the two contiguous
reads and the default thresholds 256 and 2048: one gap, so the buckets
sum to 1. -/
theorem claim4_witness :
    perfectSeqCount (gapsOf rowsContiguous) + smallGapCount 256 (gapsOf rowsContiguous) +
      mediumGapCount 256 2048 (gapsOf rowsContiguous) +
      largeGapCount 2048 (gapsOf rowsContiguous) +
      backwardCount (gapsOf rowsContiguous) = rowsContiguous.length - 1 :=
  claim4_amended rowsContiguous 256 2048 (by decide) (by decide) (by decide)

/-- C2 (amended): an event that is not a dispatched read contributes
nothing to the Batch Analytics Engine's `reads` table (hence to any of
its metrics); an event without the read flag contributes nothing to the
Streaming Pattern Analyzer's accumulators.  (The amendment is forced by
`claim2_counterexample`: the streaming pass filters only on the read
flag, so a read at a non-dispatch stage does contribute there.) -/
theorem claim2_amended :
    (∀ (pid lo hi : ℕ) (rows1 rows2 : List TraceRow) (e : TraceRow),
      e.action ≠ "D" ∨ hasR e.rwbs = false →
      readsTable pid lo hi (rows1 ++ e :: rows2) = readsTable pid lo hi (rows1 ++ rows2)) ∧
    (∀ (T : ℤ) (lines1 lines2 : List BlkLine) (l : BlkLine),
      hasR l.rwbs = false →
      streamRunState T (lines1 ++ l :: lines2) = streamRunState T (lines1 ++ lines2)) := by
  constructor
  · intro pid lo hi rows1 rows2 e he
    unfold readsTable
    congr 1
    rw [List.filter_append, List.filter_append]
    congr 1
    rw [List.filter_cons_of_neg]
    rcases he with h | h
    · simp [readsPred, h]
    · simp [readsPred, h]
  · intro T lines1 lines2 l h
    unfold streamRunState
    rw [List.foldl_append, List.foldl_append, List.foldl_cons]
    have hstep : ∀ st : StreamState, streamStep T st l = st := by
      intro st
      simp [streamStep, h]
    rw [hstep]

/-- C2 witness: the amended statement applied to the queue-stage read row
(batch side) and to the dispatched write line (streaming side), each
inserted into an otherwise empty trace. -/
theorem claim2_witness :
    readsTable 7 0 8 [rowQueued] = readsTable 7 0 8 [] ∧
    streamRunState SEQUENTIAL_THRESHOLD_SECTORS [lineWrite] =
      streamRunState SEQUENTIAL_THRESHOLD_SECTORS [] :=
  ⟨claim2_amended.1 7 0 8 [] [] rowQueued (Or.inl (by decide)),
   claim2_amended.2 SEQUENTIAL_THRESHOLD_SECTORS [] [] lineWrite (by decide)⟩

/-- Streaming classification counts from a state with a previous read:
the final sequential and random counters add one per gap within and
beyond the threshold, respectively. -/
theorem streamRun_counts_aux (T : ℤ) :
    ∀ (lines : List BlkLine) (st : StreamState) (pts : ℚ) (ps pz : ℕ),
      (∀ l ∈ lines, hasR l.rwbs = true) →
      st.prev = some (pts, ps, pz) →
      (lines.foldl (streamStep T) st).sequential =
        st.sequential + (gapsFrom (ps, pz) lines).countP (fun g => decide (|g| ≤ T)) ∧
      (lines.foldl (streamStep T) st).random =
        st.random + (gapsFrom (ps, pz) lines).countP (fun g => decide (¬ |g| ≤ T)) := by
  intro lines
  induction lines with
  | nil =>
      intro st pts ps pz _ _
      simp [gapsFrom]
  | cons l rest ih =>
      intro st pts ps pz hall hprev
      have hl : hasR l.rwbs = true := hall l (by simp)
      have hrest : ∀ x ∈ rest, hasR x.rwbs = true := fun x hx => hall x (by simp [hx])
      have hstep : streamStep T st l =
          { st with
            total_reads := st.total_reads + 1
            total_bytes := st.total_bytes + l.size_sectors * 512
            gap_sum := st.gap_sum + |(l.sector : ℤ) - ((ps : ℤ) + (pz : ℤ))|
            gap_count := st.gap_count + 1
            sequential :=
              if |(l.sector : ℤ) - ((ps : ℤ) + (pz : ℤ))| ≤ T then st.sequential + 1
              else st.sequential
            random :=
              if |(l.sector : ℤ) - ((ps : ℤ) + (pz : ℤ))| ≤ T then st.random
              else st.random + 1
            interval_count := st.interval_count + 1
            interval_sum_ms := st.interval_sum_ms + (l.ts - pts) * 1000
            interval_min_ms :=
              some ((st.interval_min_ms).elim ((l.ts - pts) * 1000)
                (fun m => min m ((l.ts - pts) * 1000)))
            interval_max_ms :=
              some ((st.interval_max_ms).elim ((l.ts - pts) * 1000)
                (fun m => max m ((l.ts - pts) * 1000)))
            prev := some (l.ts, l.sector, l.size_sectors) } := by
        rw [streamStep, hprev]
        simp [hl]
      obtain ⟨ihs, ihr⟩ :=
        ih (streamStep T st l) l.ts l.sector l.size_sectors hrest (by rw [hstep])
      rw [List.foldl_cons]
      constructor
      · rw [ihs, hstep]
        show (if |(l.sector : ℤ) - ((ps : ℤ) + (pz : ℤ))| ≤ T then st.sequential + 1
            else st.sequential) + _ = _
        rw [gapsFrom, List.countP_cons]
        simp only [decide_eq_true_eq]
        split <;> simp_all <;> omega
      · rw [ihr, hstep]
        show (if |(l.sector : ℤ) - ((ps : ℤ) + (pz : ℤ))| ≤ T then st.random
            else st.random + 1) + _ = _
        rw [gapsFrom, List.countP_cons]
        simp only [decide_eq_true_eq, decide_not]
        split <;> simp_all <;> omega

/-- Streaming classification counts over a pure read stream: sequential
counts the gaps with `|gap| ≤ T`, random the rest. -/
theorem streamRun_counts (T : ℤ) (lines : List BlkLine)
    (hall : ∀ l ∈ lines, hasR l.rwbs = true) :
    (streamRunState T lines).sequential =
      (gapsOfL lines).countP (fun g => decide (|g| ≤ T)) ∧
    (streamRunState T lines).random =
      (gapsOfL lines).countP (fun g => decide (¬ |g| ≤ T)) := by
  cases lines with
  | nil => simp [streamRunState, initStream, gapsOfL]
  | cons l rest =>
      have hl : hasR l.rwbs = true := hall l (by simp)
      have h1 : streamStep T initStream l =
          { initStream with
            total_reads := 1
            total_bytes := l.size_sectors * 512
            prev := some (l.ts, l.sector, l.size_sectors) } := by
        rw [streamStep]
        simp [hl, initStream]
      unfold streamRunState
      rw [List.foldl_cons]
      obtain ⟨hs, hr⟩ := streamRun_counts_aux T rest (streamStep T initStream l)
        l.ts l.sector l.size_sectors (fun x hx => hall x (by simp [hx])) (by rw [h1])
      rw [hs, hr, h1]
      simp only [gapsOfL]
      refine ⟨?_, ?_⟩ <;> simp [initStream]

/-- Two mutually exclusive counts add up to the count of the
disjunction. -/
theorem countP_add_countP_disjoint {α : Type} (p q : α → Bool)
    (hpq : ∀ a, ¬(p a = true ∧ q a = true)) :
    ∀ l : List α, l.countP p + l.countP q = l.countP (fun a => p a || q a) := by
  intro l
  induction l with
  | nil => rfl
  | cons a t ih =>
      simp only [List.countP_cons, Bool.or_eq_true]
      rcases hp : p a <;> rcases hq : q a <;> simp_all <;> omega

/-- The Streaming Pattern Analyzer's view of a trace-row list produces
the same gap sequence as the Batch Analytics Engine's `gaps` table. -/
theorem gapsOfL_map_toBlkLine : ∀ rows : List TraceRow,
    gapsOfL (rows.map toBlkLine) = gapsOf rows := by
  have aux : ∀ (rows : List TraceRow) (a : TraceRow),
      gapsFrom (a.sector, a.size_sectors) (rows.map toBlkLine) = gapsOf (a :: rows) := by
    intro rows
    induction rows with
    | nil => intro a; rfl
    | cons b t ih =>
        intro a
        rw [List.map_cons, gapsFrom, gapsOf, ← ih b]
        rfl
  intro rows
  cases rows with
  | nil => rfl
  | cons a t => exact aux t a

/-- C1 (amended): on an ordered read sequence in which every signed gap
is non-negative and differs from the threshold, the Streaming Pattern
Analyzer's sequential count equals the Batch Analytics Engine's
perfect-sequential plus small-gap counts, and its random count is the
remaining gap count.  (The hypotheses are forced by
`claim1_counterexample`: streaming classifies `|gap| ≤ T`, the batch
buckets `0 ≤ gap < T`, so backward gaps — and a gap exactly `T` — are
classified differently; a non-negative threshold is assumed, matching
the positive default.) -/
theorem claim1_amended (T : ℤ) (rows : List TraceRow) (hT0 : 0 ≤ T)
    (hall : ∀ r ∈ rows, hasR r.rwbs = true)
    (hg : ∀ g ∈ gapsOf rows, 0 ≤ g ∧ g ≠ T) :
    (streamRunState T (rows.map toBlkLine)).sequential =
      perfectSeqCount (gapsOf rows) + smallGapCount T (gapsOf rows) ∧
    (streamRunState T (rows.map toBlkLine)).random =
      (gapsOf rows).length -
        (perfectSeqCount (gapsOf rows) + smallGapCount T (gapsOf rows)) := by
  have hall' : ∀ l ∈ rows.map toBlkLine, hasR l.rwbs = true := by
    intro l hl
    rcases List.mem_map.mp hl with ⟨r, hr, rfl⟩
    exact hall r hr
  obtain ⟨hs, hr⟩ := streamRun_counts T (rows.map toBlkLine) hall'
  rw [gapsOfL_map_toBlkLine] at hs hr
  have hcongr : (gapsOf rows).countP (fun g => decide (|g| ≤ T)) =
      (gapsOf rows).countP (fun g => decide (g = 0) || decide (0 < g ∧ g < T)) := by
    apply List.countP_congr
    intro g hgm
    obtain ⟨h0, hT⟩ := hg g hgm
    have habs : |g| = g := abs_of_nonneg h0
    simp only [habs, decide_eq_true_eq, Bool.or_eq_true]
    omega
  have hsplit : perfectSeqCount (gapsOf rows) + smallGapCount T (gapsOf rows) =
      (gapsOf rows).countP (fun g => decide (g = 0) || decide (0 < g ∧ g < T)) := by
    apply countP_add_countP_disjoint
    intro g
    simp only [decide_eq_true_eq]
    omega
  have hlen := List.length_eq_countP_add_countP
    (fun g : ℤ => decide (|g| ≤ T)) (gapsOf rows)
  have hnot : (gapsOf rows).countP (fun g => decide (¬ |g| ≤ T)) =
      (gapsOf rows).countP (fun g => ¬ (decide (|g| ≤ T) : Bool)) := by
    apply List.countP_congr
    intro g _
    simp
  constructor
  · rw [hs, hcongr, hsplit]
  · rw [hr]
    omega

/-- C1 witness: the amended streaming/batch agreement on the three-read
scenario, whose gaps `0` and `3984` are non-negative and distinct from
the threshold: one sequential and one random read in both engines. -/
theorem claim1_witness :
    (streamRunState SEQUENTIAL_THRESHOLD_SECTORS (rowsContiguous.map toBlkLine)).sequential =
      perfectSeqCount (gapsOf rowsContiguous) +
        smallGapCount SEQUENTIAL_THRESHOLD_SECTORS (gapsOf rowsContiguous) :=
  (claim1_amended SEQUENTIAL_THRESHOLD_SECTORS rowsContiguous (by decide) (by decide)
    (by decide)).1

/-- C7 (amended): the Batch Analytics Engine's `reads` table contains
exactly the events that are dispatched reads of the scoped pid whose
start sector lies in the CLOSED interval `[min_sector, max_sector]`: the
filter is `sector >= min AND sector <= max`, so an event starting exactly
at `max_sector` is included (see `claim7_counterexample`), and only
events strictly outside the closed interval are excluded from all batch
metrics. -/
theorem claim7_amended (pid lo hi : ℕ) (rows : List TraceRow) (e : TraceRow) :
    e ∈ readsTable pid lo hi rows ↔
      e ∈ rows ∧ e.action = "D" ∧ hasR e.rwbs = true ∧ e.pid = pid ∧
        lo ≤ e.sector ∧ e.sector ≤ hi := by
  unfold readsTable
  rw [List.mem_mergeSort, List.mem_filter]
  simp [readsPred, and_assoc]

/-- Lookup fails exactly when no entry carries the key. -/
theorem lookup_eq_none_iff_any {β : Type} (l : List (ℕ × β)) (k : ℕ) :
    l.lookup k = none ↔ l.any (fun p => p.1 == k) = false := by
  induction l with
  | nil => simp
  | cons a t ih =>
      obtain ⟨ak, av⟩ := a
      rw [List.lookup_cons]
      by_cases hk : k = ak
      · subst hk
        simp
      · have h1 : (k == ak) = false := by simpa using hk
        have h2 : (ak == k) = false := by simpa using (Ne.symm hk)
        simp [h1, h2, ih]

/-- Dict assignment keeps keys duplicate-free. -/
theorem nodup_dictSet {β : Type} (l : List (ℕ × β)) (k : ℕ) (v : β)
    (h : (l.map Prod.fst).Nodup) : ((dictSet l k v).map Prod.fst).Nodup := by
  unfold dictSet
  split
  · have heq : (l.map (fun p => if p.1 = k then (k, v) else p)).map Prod.fst
        = l.map Prod.fst := by
      rw [List.map_map]
      apply List.map_congr_left
      intro p _
      by_cases hpk : p.1 = k
      · simp [hpk]
      · simp [hpk]
    rw [heq]
    exact h
  · rename_i hany
    rw [List.map_append]
    simp only [List.map_cons, List.map_nil]
    refine List.Nodup.append h (List.nodup_singleton k) ?_
    intro a ha hb
    rw [List.mem_singleton] at hb
    subst hb
    rcases List.mem_map.mp ha with ⟨p, hp, rfl⟩
    exact hany (List.any_eq_true.mpr ⟨p, hp, by simp⟩)

/-- A fresh dict assignment adds its value to the stored-size total. -/
theorem sum_dictSet_of_lookup_none (l : List (ℕ × ℕ)) (k v : ℕ)
    (h : l.lookup k = none) :
    ((dictSet l k v).map (fun p => p.2)).sum = (l.map (fun p => p.2)).sum + v := by
  have hany := (lookup_eq_none_iff_any l k).mp h
  unfold dictSet
  rw [hany]
  simp

/-- Overwriting an existing key trades the old stored value for the new
one in the total. -/
theorem sum_dictSet_of_lookup_some (l : List (ℕ × ℕ)) (k v w : ℕ)
    (hnd : (l.map Prod.fst).Nodup) (h : l.lookup k = some w) :
    ((dictSet l k v).map (fun p => p.2)).sum + w = (l.map (fun p => p.2)).sum + v := by
  have hanyl : l.any (fun p => p.1 == k) = true := by
    rcases hx : l.any (fun p => p.1 == k) with _ | _
    · rw [(lookup_eq_none_iff_any l k).mpr hx] at h
      exact absurd h (by simp)
    · rfl
  unfold dictSet
  rw [hanyl]
  simp only [if_true]
  induction l with
  | nil => simp at h
  | cons a t ih =>
      obtain ⟨ak, av⟩ := a
      simp only [List.map_cons, List.nodup_cons] at hnd
      obtain ⟨hak, hndt⟩ := hnd
      by_cases hk : k = ak
      · subst hk
        rw [List.lookup_cons] at h
        simp only [beq_self_eq_true] at h
        have hw : av = w := by
          simpa using h
        have htmap : t.map (fun p => if p.1 = k then (k, v) else p) = t := by
          apply List.map_congr_left ?_ |>.trans (List.map_id t)
          intro p hp
          have : p.1 ≠ k := by
            intro hpk
            exact hak (by rw [← hpk]; exact List.mem_map_of_mem Prod.fst hp)
          simp [this]
        simp only [List.map_cons, List.sum_cons, htmap]
        norm_num
        omega
      · rw [List.lookup_cons] at h
        have h1 : (k == ak) = false := by simpa using hk
        rw [h1] at h
        have hanyt : t.any (fun p => p.1 == k) = true := by
          rcases hx : t.any (fun p => p.1 == k) with _ | _
          · rw [(lookup_eq_none_iff_any t k).mpr hx] at h
            exact absurd h (by simp)
          · rfl
        have := ih hndt h hanyt
        simp only [List.map_cons, List.sum_cons, if_neg (by simpa using Ne.symm hk)] at *
        omega

/-- Removing the entry of a present key subtracts its stored value from
the total. -/
theorem sum_filter_of_lookup_some (l : List (ℕ × ℕ)) (k w : ℕ)
    (hnd : (l.map Prod.fst).Nodup) (h : l.lookup k = some w) :
    ((l.filter (fun p => decide (p.1 ≠ k))).map (fun p => p.2)).sum + w
      = (l.map (fun p => p.2)).sum := by
  induction l with
  | nil => simp at h
  | cons a t ih =>
      obtain ⟨ak, av⟩ := a
      simp only [List.map_cons, List.nodup_cons] at hnd
      obtain ⟨hak, hndt⟩ := hnd
      by_cases hk : k = ak
      · subst hk
        rw [List.lookup_cons] at h
        simp only [beq_self_eq_true] at h
        have hw : av = w := by simpa using h
        have hfil : t.filter (fun p => decide (p.1 ≠ k)) = t := by
          apply List.filter_eq_self.mpr
          intro p hp
          have : p.1 ≠ k := by
            intro hpk
            exact hak (by rw [← hpk]; exact List.mem_map_of_mem Prod.fst hp)
          simpa using this
        rw [List.filter_cons_of_neg (by simp), hfil]
        simp only [List.map_cons, List.sum_cons]
        omega
      · rw [List.lookup_cons] at h
        have h1 : (k == ak) = false := by simpa using hk
        rw [h1] at h
        have := ih hndt h
        rw [List.filter_cons_of_pos (by simpa using Ne.symm hk)]
        simp only [List.map_cons, List.sum_cons] at *
        omega

/-- The replayed state and the spec-side state agree step by step when no
alloc reuses a still-active id, starting from any state whose cumulative
size equals the sum of its active sizes. -/
theorem occ_run_eq_spec_aux :
    ∀ (events : List BufEvent) (st : OccState),
      (st.active.map Prod.fst).Nodup →
      st.cumulative = (((st.active.map (fun p => p.2)).sum : ℕ) : ℤ) →
      noActiveReuse st.active events = true →
      events.foldl occStep st = events.foldl occStepSpec st := by
  intro events
  induction events with
  | nil => intro st _ _ _; rfl
  | cons ev rest ih =>
      intro st hnd hcum hnr
      cases ev with
      | alloc ts id sz nm =>
          simp only [noActiveReuse, Bool.and_eq_true] at hnr
          obtain ⟨hl, hrest⟩ := hnr
          have hlk : st.active.lookup id = none := by simpa using hl
          have hsum := sum_dictSet_of_lookup_none st.active id sz hlk
          have hcum' : st.cumulative + (sz : ℤ) =
              ((((dictSet st.active id sz).map (fun p => p.2)).sum : ℕ) : ℤ) := by
            rw [hsum, hcum]
            push_cast
            ring
          have hstep : occStepSpec st (.alloc ts id sz nm) =
              occStep st (.alloc ts id sz nm) := by
            simp only [occStepSpec, occStep]
            rw [← hcum']
          rw [List.foldl_cons, List.foldl_cons, hstep]
          exact ih (occStep st (.alloc ts id sz nm))
            (nodup_dictSet st.active id sz hnd) hcum' hrest
      | dealloc ts id =>
          simp only [noActiveReuse] at hnr
          rw [List.foldl_cons, List.foldl_cons]
          cases hl : st.active.lookup id with
          | none =>
              rw [hl] at hnr
              have hstep : occStep st (.dealloc ts id) = st := by
                simp [occStep, hl]
              have hstep2 : occStepSpec st (.dealloc ts id) = st := by
                simp [occStepSpec, hl]
              rw [hstep, hstep2]
              exact ih st hnd hcum hnr
          | some sz =>
              rw [hl] at hnr
              have hsum := sum_filter_of_lookup_some st.active id sz hnd hl
              have hcum' : st.cumulative - (sz : ℤ) =
                  ((((st.active.filter (fun p => decide (p.1 ≠ id))).map
                      (fun p => p.2)).sum : ℕ) : ℤ) := by
                rw [hcum, ← hsum]
                push_cast
                ring
              have hstepeq : occStep st (.dealloc ts id) =
                  { st with
                    active := st.active.filter (fun p => decide (p.1 ≠ id))
                    cumulative := st.cumulative - (sz : ℤ)
                    registry := st.registry.map
                      (fun p => if p.1 = id then
                        (p.1, { p.2 with dealloc_time_ms := some ts }) else p)
                    timeline := st.timeline ++
                      [{ timestamp_ms := ts, event := "dealloc", buffer_id := id
                         buffer_name :=
                           ((st.registry.lookup id).map (fun i => i.name)).getD "unknown"
                         size := sz
                         cumulative_size := st.cumulative - (sz : ℤ)
                         num_active_buffers :=
                           (st.active.filter (fun p => decide (p.1 ≠ id))).length }] } := by
                simp only [occStep]
                rw [hl]
              have hstepeq2 : occStepSpec st (.dealloc ts id) =
                  occStep st (.dealloc ts id) := by
                simp only [occStepSpec, occStep]
                rw [hl]
                rw [← hcum']
              rw [hstepeq2, hstepeq]
              refine ih _ ?_ ?_ ?_
              · exact ((List.filter_sublist st.active).map Prod.fst).nodup hnd
              · exact hcum'
              · exact hnr

/-- The replayed cumulative size always dominates the (non-negative) sum
of the still-active sizes, from any state with that property. -/
theorem occ_cum_ge_sum_aux :
    ∀ (events : List BufEvent) (st : OccState),
      (st.active.map Prod.fst).Nodup →
      (((st.active.map (fun p => p.2)).sum : ℕ) : ℤ) ≤ st.cumulative →
      (((((events.foldl occStep st).active.map (fun p => p.2)).sum : ℕ) : ℤ) ≤
          (events.foldl occStep st).cumulative) ∧
        (((events.foldl occStep st).active.map Prod.fst).Nodup) := by
  intro events
  induction events with
  | nil => intro st hnd hle; exact ⟨hle, hnd⟩
  | cons ev rest ih =>
      intro st hnd hle
      rw [List.foldl_cons]
      cases ev with
      | alloc ts id sz nm =>
          refine ih (occStep st (.alloc ts id sz nm))
            (nodup_dictSet st.active id sz hnd) ?_
          show ((((dictSet st.active id sz).map (fun p => p.2)).sum : ℕ) : ℤ) ≤
            st.cumulative + (sz : ℤ)
          cases hl : st.active.lookup id with
          | none =>
              have hs := sum_dictSet_of_lookup_none st.active id sz hl
              have : ((((dictSet st.active id sz).map (fun p => p.2)).sum : ℕ) : ℤ) =
                  (((st.active.map (fun p => p.2)).sum : ℕ) : ℤ) + (sz : ℤ) := by
                rw [hs]; push_cast; ring
              omega
          | some w =>
              have hs := sum_dictSet_of_lookup_some st.active id sz w hnd hl
              have : ((((dictSet st.active id sz).map (fun p => p.2)).sum : ℕ) : ℤ) + (w : ℤ) =
                  (((st.active.map (fun p => p.2)).sum : ℕ) : ℤ) + (sz : ℤ) := by
                exact_mod_cast congrArg (fun n : ℕ => (n : ℤ)) hs
              omega
      | dealloc ts id =>
          cases hl : st.active.lookup id with
          | none =>
              have hstep : occStep st (.dealloc ts id) = st := by
                simp [occStep, hl]
              rw [hstep]
              exact ih st hnd hle
          | some sz =>
              have hsum := sum_filter_of_lookup_some st.active id sz hnd hl
              have hstepeq : occStep st (.dealloc ts id) =
                  { st with
                    active := st.active.filter (fun p => decide (p.1 ≠ id))
                    cumulative := st.cumulative - (sz : ℤ)
                    registry := st.registry.map
                      (fun p => if p.1 = id then
                        (p.1, { p.2 with dealloc_time_ms := some ts }) else p)
                    timeline := st.timeline ++
                      [{ timestamp_ms := ts, event := "dealloc", buffer_id := id
                         buffer_name :=
                           ((st.registry.lookup id).map (fun i => i.name)).getD "unknown"
                         size := sz
                         cumulative_size := st.cumulative - (sz : ℤ)
                         num_active_buffers :=
                           (st.active.filter (fun p => decide (p.1 ≠ id))).length }] } := by
                simp only [occStep]
                rw [hl]
              rw [hstepeq]
              refine ih _ ?_ ?_
              · exact ((List.filter_sublist st.active).map Prod.fst).nodup hnd
              · show ((((st.active.filter (fun p => decide (p.1 ≠ id))).map
                    (fun p => p.2)).sum : ℕ) : ℤ) ≤ st.cumulative - (sz : ℤ)
                have hcast : ((((st.active.filter (fun p => decide (p.1 ≠ id))).map
                    (fun p => p.2)).sum : ℕ) : ℤ) + (sz : ℤ) =
                    (((st.active.map (fun p => p.2)).sum : ℕ) : ℤ) := by
                  exact_mod_cast congrArg (fun n : ℕ => (n : ℤ)) hsum
                omega

/-- C10: (a) when no alloc event reuses a still-active buffer id, the
replay equals the spec-side replay whose emitted `cumulative_size` is
recomputed as the sum of the active buffer sizes after the event (and
`num_active_buffers` is their number in both, by construction); (b) on
every input whatsoever — reused ids and unknown deallocs included — the
running cumulative size is non-negative after every prefix of the
replay. -/
theorem claim10_replay_invariants (events : List BufEvent)
    (reg : List (ℕ × BufferInfo)) :
    (noActiveReuse [] events = true →
      computeOccupancy events reg = computeOccupancySpec events reg) ∧
    (∀ k : ℕ, 0 ≤ (computeOccupancy (events.take k) reg).cumulative) := by
  constructor
  · intro h
    exact occ_run_eq_spec_aux events
      { timeline := [], active := [], cumulative := 0, registry := reg }
      (by simp) (by simp) h
  · intro k
    have h := (occ_cum_ge_sum_aux (events.take k)
      { timeline := [], active := [], cumulative := 0, registry := reg }
      (by simp) (by simp)).1
    have h0 : (0 : ℤ) ≤
        (((((events.take k).foldl occStep
          { timeline := [], active := [], cumulative := 0, registry := reg }).active.map
            (fun p => p.2)).sum : ℕ) : ℤ) := by
      positivity
    exact le_trans h0 h

/-- C10 witness: on the concrete buffer scenario — which reuses no active
id — the replay agrees with the spec-side replay, and the cumulative size
after the two-event prefix is non-negative. -/
theorem claim10_witness :
    computeOccupancy eventsC9 (buildRegistry eventsC9) =
      computeOccupancySpec eventsC9 (buildRegistry eventsC9) ∧
    0 ≤ (computeOccupancy (eventsC9.take 2) (buildRegistry eventsC9)).cumulative :=
  ⟨(claim10_replay_invariants eventsC9 (buildRegistry eventsC9)).1 (by decide),
   (claim10_replay_invariants eventsC9 (buildRegistry eventsC9)).2 2⟩

instance : IsAntisymm (ℕ × ℕ) (fun a b => a.1 < b.1) :=
  ⟨fun a b h1 h2 => absurd (h1.trans h2) (lt_irrefl a.1)⟩

/-- Sorting by start block is a permutation. -/
theorem sortExtents_perm (l : List (ℕ × ℕ)) : (sortExtents l).Perm l :=
  List.mergeSort_perm l _

/-- Sorting by start block sorts the start blocks. -/
theorem sortExtents_sorted (l : List (ℕ × ℕ)) :
    (sortExtents l).Pairwise (fun a b => a.1 ≤ b.1) := by
  have h := @List.sorted_mergeSort (ℕ × ℕ) (fun a b => decide (a.1 ≤ b.1))
    (fun a b c h1 h2 => by
      simp only [decide_eq_true_eq] at *
      omega)
    (fun a b => by
      simp only [Bool.or_eq_true, decide_eq_true_eq]
      omega) l
  exact h.imp (fun hx => by simpa using hx)

/-- With pairwise-distinct start blocks the sort is strictly
increasing. -/
theorem sortExtents_strict (l : List (ℕ × ℕ))
    (hd : l.Pairwise (fun a b => a.1 ≠ b.1)) :
    (sortExtents l).Pairwise (fun a b => a.1 < b.1) := by
  have hd' : (sortExtents l).Pairwise (fun a b => a.1 ≠ b.1) :=
    ((sortExtents_perm l).pairwise_iff (fun hx => Ne.symm hx)).mpr hd
  exact ((sortExtents_sorted l).and hd').imp (fun hx => lt_of_le_of_ne hx.1 hx.2)

/-- Two permuted extent lists with distinct start blocks sort
identically. -/
theorem sortExtents_eq_of_perm (l1 l2 : List (ℕ × ℕ)) (h : l1.Perm l2)
    (hd : l2.Pairwise (fun a b => a.1 ≠ b.1)) :
    sortExtents l1 = sortExtents l2 := by
  have hd1 : l1.Pairwise (fun a b => a.1 ≠ b.1) :=
    (h.pairwise_iff (fun hx => Ne.symm hx)).mpr hd
  have hperm : (sortExtents l1).Perm (sortExtents l2) :=
    (sortExtents_perm l1).trans (h.trans (sortExtents_perm l2).symm)
  exact List.eq_of_perm_of_sorted hperm (sortExtents_strict l1 hd1)
    (sortExtents_strict l2 hd)

/-- The merge scan's first output extent starts where the running extent
starts. -/
theorem mergeAdjacent_head :
    ∀ (rest : List (ℕ × ℕ)) (cur : ℕ × ℕ),
      ∃ e tail, mergeAdjacent cur rest = (cur.1, e) :: tail := by
  intro rest
  induction rest with
  | nil => intro cur; exact ⟨cur.2, [], rfl⟩
  | cons p r2 ih =>
      intro cur
      obtain ⟨s, e⟩ := p
      rw [mergeAdjacent]
      by_cases hm : s = cur.2 + 1
      · rw [if_pos hm]
        obtain ⟨e2, t, ht⟩ := ih (cur.1, e)
        exact ⟨e2, t, ht⟩
      · rw [if_neg hm]
        exact ⟨cur.2, _, rfl⟩

/-- On a separated chain of valid extents the merge scan emits a
separated chain of valid extents. -/
theorem mergeAdjacent_sep_valid :
    ∀ (rest : List (ℕ × ℕ)) (cur : ℕ × ℕ),
      cur.1 ≤ cur.2 → (∀ x ∈ rest, x.1 ≤ x.2) →
      List.Chain' (fun a b => a.2 < b.1) (cur :: rest) →
      sepChain (mergeAdjacent cur rest) ∧
        ∀ x ∈ mergeAdjacent cur rest, x.1 ≤ x.2 := by
  intro rest
  induction rest with
  | nil =>
      intro cur hcv _ _
      refine ⟨List.chain'_singleton cur, ?_⟩
      intro x hx
      rw [mergeAdjacent] at hx
      rw [List.mem_singleton] at hx
      subst hx
      exact hcv
  | cons p r2 ih =>
      intro cur hcv hv hch
      obtain ⟨s, e⟩ := p
      have hse : s ≤ e := hv (s, e) (by simp)
      have hv2 : ∀ x ∈ r2, x.1 ≤ x.2 := fun x hx => hv x (by simp [hx])
      rw [List.chain'_cons] at hch
      obtain ⟨hcs, h2⟩ := hch
      rw [mergeAdjacent]
      by_cases hm : s = cur.2 + 1
      · rw [if_pos hm]
        apply ih (cur.1, e)
        · show cur.1 ≤ e
          have : cur.2 < s := hcs
          omega
        · exact hv2
        · cases r2 with
          | nil => exact List.chain'_singleton _
          | cons q t =>
              rw [List.chain'_cons] at h2 ⊢
              exact ⟨h2.1, h2.2⟩
      · rw [if_neg hm]
        obtain ⟨ihsep, ihval⟩ := ih (s, e) hse hv2 h2
        constructor
        · obtain ⟨e2, t, ht⟩ := mergeAdjacent_head r2 (s, e)
          rw [ht]
          rw [ht] at ihsep
          exact List.chain'_cons.mpr ⟨hcs, ihsep⟩
        · intro x hx
          rcases List.mem_cons.mp hx with rfl | hx2
          · exact hcv
          · exact ihval x hx2

/-- The break count at the head only depends on the running end. -/
theorem adjacencyBreaks_head_congr (t : List (ℕ × ℕ)) (a b : ℕ × ℕ)
    (h : a.2 = b.2) : adjacencyBreaks (a :: t) = adjacencyBreaks (b :: t) := by
  cases t with
  | nil => rfl
  | cons q r => simp [adjacencyBreaks, h]

/-- The merge scan emits one extent per maximal adjacency run. -/
theorem mergeAdjacent_length :
    ∀ (rest : List (ℕ × ℕ)) (cur : ℕ × ℕ),
      (mergeAdjacent cur rest).length = adjacencyBreaks (cur :: rest) + 1 := by
  intro rest
  induction rest with
  | nil => intro cur; rfl
  | cons p r2 ih =>
      intro cur
      obtain ⟨s, e⟩ := p
      rw [mergeAdjacent, adjacencyBreaks]
      by_cases hm : s = cur.2 + 1
      · rw [if_pos hm, if_pos hm, ih (cur.1, e),
          adjacencyBreaks_head_congr r2 (cur.1, e) (s, e) rfl]
        omega
      · rw [if_neg hm, if_neg hm]
        simp only [List.length_cons]
        rw [ih (s, e)]
        omega

unseal List.merge List.mergeSort in
/-- C5 (amended): for every non-empty list of valid (`start ≤ end`),
pairwise-disjoint block extents, the Extent Mapper's merged output is a
separated (hence sorted and non-overlapping) chain of valid extents, its
extent count is the number of maximal adjacency runs of the sorted input
(breaks plus one), and it is independent of the input order; the spec's
concrete scenario merges `[(0,99),(100,199),(300,399)]` to
`[(0,199),(300,399)]` with sector bound `[0, 3200)` at 8 sectors per
block.  (Restricting to disjoint extents is forced by
`claim5_counterexample`: on overlapping extents the merged output itself
overlaps.) -/
theorem claim5_amended :
    (∀ l : List (ℕ × ℕ), l ≠ [] → (∀ x ∈ l, x.1 ≤ x.2) →
      l.Pairwise (fun a b => a.2 < b.1 ∨ b.2 < a.1) →
      sepChain (mergedExtents l) ∧ (∀ x ∈ mergedExtents l, x.1 ≤ x.2) ∧
        (mergedExtents l).length = adjacencyBreaks (sortExtents l) + 1 ∧
        (∀ l2 : List (ℕ × ℕ), l2.Perm l → mergedExtents l2 = mergedExtents l)) ∧
    mergedExtents extentsC5 = [(0, 199), (300, 399)] ∧
    ggufSectorRange extentsC5 = some (0, 3200, 2) := by
  refine ⟨?_, ?_, ?_⟩
  · intro l hne hval hdisj
    have hvalid2 : ∀ x ∈ sortExtents l, x.1 ≤ x.2 :=
      fun x hx => hval x ((sortExtents_perm l).mem_iff.mp hx)
    have hdisj2 : (sortExtents l).Pairwise (fun a b => a.2 < b.1 ∨ b.2 < a.1) :=
      ((sortExtents_perm l).pairwise_iff (fun hx => hx.symm)).mpr hdisj
    have hsep : (sortExtents l).Pairwise (fun a b => a.2 < b.1) := by
      refine ((sortExtents_sorted l).and hdisj2).imp_of_mem ?_
      intro a b ha hb hab
      obtain ⟨hle, hd⟩ := hab
      have hva := hvalid2 a ha
      have hvb := hvalid2 b hb
      rcases hd with hd | hd
      · exact hd
      · omega
    have hchain : List.Chain' (fun a b : ℕ × ℕ => a.2 < b.1) (sortExtents l) :=
      hsep.chain'
    have hslne : sortExtents l ≠ [] := by
      intro hnil
      have hp := sortExtents_perm l
      rw [hnil] at hp
      exact hne hp.symm.eq_nil
    have hne' : l.Pairwise (fun a b => a.1 ≠ b.1) := by
      refine hdisj.imp_of_mem ?_
      intro a b ha hb hd
      have hva := hval a ha
      have hvb := hval b hb
      rcases hd with hd | hd
      · omega
      · omega
    cases hs : sortExtents l with
    | nil => exact absurd hs hslne
    | cons x rest =>
        have hmerged : mergedExtents l = mergeAdjacent x rest := by
          unfold mergedExtents
          rw [hs]
        rw [hs] at hvalid2 hchain
        have hxv : x.1 ≤ x.2 := hvalid2 x (by simp)
        have hrv : ∀ y ∈ rest, y.1 ≤ y.2 := fun y hy => hvalid2 y (by simp [hy])
        obtain ⟨hsepout, hvalout⟩ := mergeAdjacent_sep_valid rest x hxv hrv hchain
        refine ⟨?_, ?_, ?_, ?_⟩
        · rw [hmerged]; exact hsepout
        · rw [hmerged]; exact hvalout
        · rw [hmerged, mergeAdjacent_length rest x]
        · intro l2 hperm
          have hsort : sortExtents l2 = sortExtents l :=
            sortExtents_eq_of_perm l2 l hperm hne'
          unfold mergedExtents
          rw [hsort]
  · unfold mergedExtents sortExtents extentsC5
    rfl
  · unfold ggufSectorRange mergedExtents sortExtents extentsC5
    rfl

unseal List.merge List.mergeSort in
/-- C5 witness: the amended theorem applied to the concrete scenario and
to its scrambled permutation: the merged list is sorted-disjoint with 2
extents (one break plus one), and the scrambled input merges to the same
output. -/
theorem claim5_witness :
    (mergedExtents extentsC5).length = adjacencyBreaks (sortExtents extentsC5) + 1 ∧
    mergedExtents extentsC5shuffled = mergedExtents extentsC5 := by
  have h := claim5_amended.1 extentsC5 (by decide) (by decide) (by decide)
  exact ⟨h.2.2.1, h.2.2.2 extentsC5shuffled (by decide)⟩

end BSC
